import Mathlib

/-!
Shallow embedding of the bip32hdwallet crate's key-derivation core
(src/bip32.rs, src/bip44.rs, src/utils.rs), with the cryptographic
collaborators (HMAC-SHA512, SHA-256, the secp256k1 curve primitive and the
bs58 codec) abstracted as parameters, exactly as the specification treats
them: external primitives whose only contract is the byte string they emit
or consume.

Modelling conventions:
 - bytes are `Nat` (well-formedness predicates bound them below 256 where
   it matters), byte strings are `List Nat`;
 - the secp256k1 group is cyclic of prime order `nOrder`, so a public key
   (a non-identity curve point) is modelled by its discrete logarithm: a
   scalar in `[1, nOrder)`.  Scalar-to-point multiplication is then the
   identity on scalars and point addition is addition mod `nOrder`, which
   is the collaborator's exact mathematical interface;
 - Rust `u8`/`u32` arithmetic is `Nat` with `% 2^w` where overflow can
   happen (the `depth + 1` increment);
 - `Result<T, Error>` is `Except Error T`; the detail strings carried by
   the Rust error variants are dropped, keeping only the variant (no claim
   refers to the message text).
-/

/-- The order n of the secp256k1 group (the Rust code delegates scalar
arithmetic mod n to the secp256k1 crate). -/
def nOrder : Nat :=
  0xFFFFFFFFFFFFFFFFFFFFFFFFFFFFFFFEBAAEDCE6AF48A03BBFD25E8CD0364141

/-- Big-endian serialization of a natural number into `w` bytes
(the wire format of `to_be_bytes` and of 256-bit scalars). -/
def serBE : Nat → Nat → List Nat
  | 0, _ => []
  | w + 1, k => serBE w (k / 256) ++ [k % 256]

/-- ser256: 32-byte big-endian scalar serialization (BIP-32). -/
def ser256 (k : Nat) : List Nat := serBE 32 k

/-- ser32: 4-byte big-endian u32 serialization (`u32::to_be_bytes`). -/
def ser32 (k : Nat) : List Nat := serBE 4 k

/-- Parse a big-endian byte string as a natural number
(`u32::from_be_bytes`, and the scalar interpretation of 32-byte strings). -/
def parseBE (l : List Nat) : Nat := l.foldl (fun a b => a * 256 + b) 0

/-- Error kinds of src/error.rs (detail strings dropped). -/
inductive Error where
  | InvalidSeed
  | InvalidKey
  | InvalidDerivationPath
  | InvalidExtendedKey
  | InvalidChecksum
  | InvalidMnemonic
  | InvalidEntropy
  | Secp256k1
  | HmacError
  | Base58DecodeError
  | HardenedDerivationRequiresPrivateKey
  | InvalidWord
  | UnsupportedLanguage
deriving DecidableEq, Repr

/-- The network tag (src/bip32.rs `Network`). -/
inductive Network where
  | Bitcoin
  | Testnet
deriving DecidableEq, Repr

/-- Version bytes for extended private keys (xprv / tprv). -/
def Network.xprv_version : Network → List Nat
  | .Bitcoin => [0x04, 0x88, 0xAD, 0xE4]
  | .Testnet => [0x04, 0x35, 0x83, 0x94]

/-- Version bytes for extended public keys (xpub / tpub). -/
def Network.xpub_version : Network → List Nat
  | .Bitcoin => [0x04, 0x88, 0xB2, 0x1E]
  | .Testnet => [0x04, 0x35, 0x87, 0xCF]

/-- A path element (src/bip32.rs `ChildNumber`). -/
inductive ChildNumber where
  | Normal (i : Nat)
  | Hardened (i : Nat)
deriving DecidableEq, Repr

/-- `ChildNumber::MAX_NORMAL_INDEX`. -/
def ChildNumber.MAX_NORMAL_INDEX : Nat := 0x7fffffff

/-- `ChildNumber::to_u32`: the raw 32-bit index. -/
def ChildNumber.to_u32 : ChildNumber → Nat
  | .Normal i => i
  | .Hardened i => i + ChildNumber.MAX_NORMAL_INDEX + 1

/-- `ChildNumber::is_hardened`. -/
def ChildNumber.is_hardened : ChildNumber → Bool
  | .Normal _ => false
  | .Hardened _ => true

/-- The stored index `i` of a child number (the data model's invariant is
that it never exceeds `MAX_NORMAL_INDEX`; the hardened bit lives in the
tag). -/
def ChildNumber.index : ChildNumber → Nat
  | .Normal i => i
  | .Hardened i => i

/-- secp256k1 `SecretKey::from_slice`: accepts exactly 32 bytes encoding a
scalar in `[1, n)` (the crate rejects zero and anything ≥ n). -/
def SecretKey.from_slice (l : List Nat) : Option Nat :=
  let x := parseBE l
  if l.length = 32 ∧ 0 < x ∧ x < nOrder then some x else none

/-- secp256k1 `SecretKey::add_tweak`: `(k + t) mod n`, failing when the
result is the zero scalar. -/
def SecretKey.add_tweak (k t : Nat) : Option Nat :=
  let r := (k + t) % nOrder
  if r = 0 then none else some r

/-- secp256k1 `PublicKey::from_secret_key`: scalar-to-point multiplication,
the identity in the discrete-logarithm model of the cyclic group. -/
def PublicKey.from_secret_key (k : Nat) : Nat := k

/-- secp256k1 `PublicKey::combine`: point addition, failing when the sum is
the identity point. -/
def PublicKey.combine (a b : Nat) : Option Nat :=
  let r := (a + b) % nOrder
  if r = 0 then none else some r

/-- The abstract primitives the core calls (utils.rs wrappers around the
hmac/sha2/bs58 crates, and the compressed-point codec of secp256k1).
`σ` is the type of the bs58-encoded form. -/
structure Prims (σ : Type) where
  hmac_sha512 : List Nat → List Nat → List Nat
  sha256 : List Nat → List Nat
  serP : Nat → List Nat
  pub_from_slice : List Nat → Option Nat
  b58_encode : List Nat → σ
  b58_decode : σ → Option (List Nat)

/-- The collaborator contracts the Rust types enforce: HMAC-SHA512 yields
64 bytes, SHA-256 yields 32 bytes, a compressed point is 33 bytes,
bs58 decoding inverts encoding, and compressed-point parsing inverts
serialization on valid points. -/
structure Prims.Wf {σ : Type} (pr : Prims σ) : Prop where
  hmac_len : ∀ k d, (pr.hmac_sha512 k d).length = 64
  sha_len : ∀ d, (pr.sha256 d).length = 32
  serP_len : ∀ p, (pr.serP p).length = 33
  b58_roundtrip : ∀ l, pr.b58_decode (pr.b58_encode l) = some l
  pub_parse : ∀ p, 0 < p → p < nOrder → pr.pub_from_slice (pr.serP p) = some p

instance {ε α : Type} [DecidableEq ε] [DecidableEq α] :
    DecidableEq (Except ε α) := fun x y =>
  match x, y with
  | .ok a, .ok b =>
    if h : a = b then isTrue (by rw [h]) else isFalse (by simp [h])
  | .ok _, .error _ => isFalse (by simp)
  | .error _, .ok _ => isFalse (by simp)
  | .error a, .error b =>
    if h : a = b then isTrue (by rw [h]) else isFalse (by simp [h])

/-- utils.rs `hash_twice`: double SHA-256. -/
def hash_twice {σ : Type} (pr : Prims σ) (data : List Nat) : List Nat :=
  pr.sha256 (pr.sha256 data)

/-- utils.rs `checksum`: first 4 bytes of double SHA-256. -/
def checksum {σ : Type} (pr : Prims σ) (data : List Nat) : List Nat :=
  (hash_twice pr data).take 4

/-- utils.rs `base58check_encode`. -/
def base58check_encode {σ : Type} (pr : Prims σ) (data : List Nat) : σ :=
  pr.b58_encode (data ++ checksum pr data)

/-- utils.rs `base58check_decode`. -/
def base58check_decode {σ : Type} (pr : Prims σ) (s : σ) :
    Except Error (List Nat) :=
  match pr.b58_decode s with
  | none => .error .Base58DecodeError
  | some decoded =>
    if decoded.length < 4 then .error .InvalidChecksum
    else
      let checksum_index := decoded.length - 4
      let data_part := decoded.take checksum_index
      let checksum_part := decoded.drop checksum_index
      if checksum_part ≠ checksum pr data_part then .error .InvalidChecksum
      else .ok data_part

/-- Extended private key (src/bip32.rs `ExtendedPrivKey`). -/
structure ExtendedPrivKey where
  depth : Nat
  parent_fingerprint : List Nat
  child_number : Nat
  chain_code : List Nat
  private_key : Nat
  network : Network
deriving DecidableEq, Repr

/-- The ASCII bytes of the string literal used as the HMAC key in
`new_master`, namely the text Bitcoin seed. -/
def bitcoinSeedKey : List Nat :=
  [66, 105, 116, 99, 111, 105, 110, 32, 115, 101, 101, 100]

/-- `ExtendedPrivKey::new_master`. -/
def ExtendedPrivKey.new_master {σ : Type} (pr : Prims σ) (seed : List Nat)
    (network : Network) : Except Error ExtendedPrivKey :=
  if seed.length < 16 then .error .InvalidSeed
  else
    let hmac_result := pr.hmac_sha512 bitcoinSeedKey seed
    let secret_key := hmac_result.take 32
    let chain_code := (hmac_result.drop 32).take 32
    match SecretKey.from_slice secret_key with
    | none => .error .InvalidKey
    | some sk =>
      .ok { depth := 0, parent_fingerprint := [0, 0, 0, 0], child_number := 0,
            chain_code := chain_code, private_key := sk, network := network }

/-- `ExtendedPrivKey::derive_child` (CKDpriv).  `depth + 1` is u8
arithmetic, hence taken mod 256 (it panics under debug overflow checks,
wraps in release). -/
def ExtendedPrivKey.derive_child {σ : Type} (pr : Prims σ)
    (self : ExtendedPrivKey) (child_number : ChildNumber) :
    Except Error ExtendedPrivKey :=
  let head : List Nat :=
    if child_number.is_hardened then
      0 :: ser256 self.private_key
    else
      pr.serP (PublicKey.from_secret_key self.private_key)
  let index := child_number.to_u32
  let hmac_input := head ++ ser32 index
  let hmac_result := pr.hmac_sha512 self.chain_code hmac_input
  let i_l := hmac_result.take 32
  let i_r := (hmac_result.drop 32).take 32
  match SecretKey.from_slice i_l with
  | none => .error .InvalidKey
  | some k₀ =>
    match SecretKey.add_tweak k₀ self.private_key with
    | none => .error .InvalidKey
    | some child_private_key =>
      let parent_public_key := PublicKey.from_secret_key self.private_key
      let fingerprint := (pr.sha256 (pr.serP parent_public_key)).take 4
      .ok { depth := (self.depth + 1) % 256,
            parent_fingerprint := fingerprint,
            child_number := index,
            chain_code := i_r,
            private_key := child_private_key,
            network := self.network }

/-- The 37-byte HMAC input built by `ExtendedPrivKey::derive_child`:
0x00 ‖ ser256(k_par) ‖ ser32(i) when hardened,
serP(point(k_par)) ‖ ser32(i) when normal, with i the raw big-endian
index. -/
def ckd_input {σ : Type} (pr : Prims σ) (k : ExtendedPrivKey)
    (c : ChildNumber) : List Nat :=
  (if c.is_hardened then 0 :: ser256 k.private_key
    else pr.serP (PublicKey.from_secret_key k.private_key)) ++
    ser32 c.to_u32

/-- Loop body of `ExtendedPrivKey::derive_path`. -/
def ExtendedPrivKey.derive_list {σ : Type} (pr : Prims σ)
    (key : ExtendedPrivKey) : List ChildNumber → Except Error ExtendedPrivKey
  | [] => .ok key
  | c :: rest =>
    match key.derive_child pr c with
    | .error e => .error e
    | .ok k => k.derive_list pr rest

/-- Extended public key (src/bip32.rs `ExtendedPubKey`); the curve point is
modelled by its discrete logarithm. -/
structure ExtendedPubKey where
  depth : Nat
  parent_fingerprint : List Nat
  child_number : Nat
  chain_code : List Nat
  public_key : Nat
  network : Network
deriving DecidableEq, Repr

/-- `ExtendedPrivKey::to_extended_public_key`. -/
def ExtendedPrivKey.to_extended_public_key (self : ExtendedPrivKey) :
    ExtendedPubKey :=
  { depth := self.depth,
    parent_fingerprint := self.parent_fingerprint,
    child_number := self.child_number,
    chain_code := self.chain_code,
    public_key := PublicKey.from_secret_key self.private_key,
    network := self.network }

/-- `ExtendedPrivKey::to_string`: the 78-byte record, Base58Check encoded. -/
def ExtendedPrivKey.to_string {σ : Type} (pr : Prims σ)
    (self : ExtendedPrivKey) : σ :=
  let data :=
    self.network.xprv_version ++ [self.depth] ++ self.parent_fingerprint ++
      ser32 self.child_number ++ self.chain_code ++
      (0 :: ser256 self.private_key)
  base58check_encode pr data

/-- Field extraction of `ExtendedPrivKey::from_string` after the version
match determined the network. -/
def ExtendedPrivKey.parse_fields (data : List Nat) (network : Network) :
    Except Error ExtendedPrivKey :=
  let depth := (data.drop 4).headD 0
  let parent_fingerprint := (data.drop 5).take 4
  let child_number := parseBE ((data.drop 9).take 4)
  let chain_code := (data.drop 13).take 32
  if (data.drop 45).headD 0 ≠ 0 then .error .InvalidExtendedKey
  else
    match SecretKey.from_slice ((data.drop 46).take 32) with
    | none => .error .InvalidKey
    | some private_key =>
      .ok { depth := depth, parent_fingerprint := parent_fingerprint,
            child_number := child_number, chain_code := chain_code,
            private_key := private_key, network := network }

/-- `ExtendedPrivKey::from_string`. -/
def ExtendedPrivKey.from_string {σ : Type} (pr : Prims σ) (xprv : σ) :
    Except Error ExtendedPrivKey :=
  match base58check_decode pr xprv with
  | .error e => .error e
  | .ok data =>
    if data.length ≠ 78 then .error .InvalidExtendedKey
    else
      let version := data.take 4
      if version = Network.Bitcoin.xprv_version then
        ExtendedPrivKey.parse_fields data Network.Bitcoin
      else if version = Network.Testnet.xprv_version then
        ExtendedPrivKey.parse_fields data Network.Testnet
      else .error .InvalidExtendedKey

/-- `ExtendedPubKey::derive_child` (CKDpub), non-hardened only. -/
def ExtendedPubKey.derive_child {σ : Type} (pr : Prims σ)
    (self : ExtendedPubKey) (child_number : ChildNumber) :
    Except Error ExtendedPubKey :=
  if child_number.is_hardened then
    .error .HardenedDerivationRequiresPrivateKey
  else
    let index := child_number.to_u32
    let hmac_input := pr.serP self.public_key ++ ser32 index
    let hmac_result := pr.hmac_sha512 self.chain_code hmac_input
    let i_l := hmac_result.take 32
    let i_r := (hmac_result.drop 32).take 32
    match SecretKey.from_slice i_l with
    | none => .error .InvalidKey
    | some hash =>
      let point := PublicKey.from_secret_key hash
      match PublicKey.combine self.public_key point with
      | none => .error .InvalidKey
      | some child_public_key =>
        let fingerprint := (pr.sha256 (pr.serP self.public_key)).take 4
        .ok { depth := (self.depth + 1) % 256,
              parent_fingerprint := fingerprint,
              child_number := index,
              chain_code := i_r,
              public_key := child_public_key,
              network := self.network }

/-- Loop body of `ExtendedPubKey::derive_path`: each step is rejected when
hardened before `derive_child` is called. -/
def ExtendedPubKey.derive_list {σ : Type} (pr : Prims σ)
    (key : ExtendedPubKey) : List ChildNumber → Except Error ExtendedPubKey
  | [] => .ok key
  | c :: rest =>
    if c.is_hardened then .error .HardenedDerivationRequiresPrivateKey
    else
      match key.derive_child pr c with
      | .error e => .error e
      | .ok k => k.derive_list pr rest

/-- `ExtendedPubKey::to_string`. -/
def ExtendedPubKey.to_string {σ : Type} (pr : Prims σ)
    (self : ExtendedPubKey) : σ :=
  let data :=
    self.network.xpub_version ++ [self.depth] ++ self.parent_fingerprint ++
      ser32 self.child_number ++ self.chain_code ++ pr.serP self.public_key
  base58check_encode pr data

/-- Field extraction of `ExtendedPubKey::from_string` after the version
match determined the network. -/
def ExtendedPubKey.parse_fields {σ : Type} (pr : Prims σ) (data : List Nat)
    (network : Network) : Except Error ExtendedPubKey :=
  let depth := (data.drop 4).headD 0
  let parent_fingerprint := (data.drop 5).take 4
  let child_number := parseBE ((data.drop 9).take 4)
  let chain_code := (data.drop 13).take 32
  match pr.pub_from_slice ((data.drop 45).take 33) with
  | none => .error .InvalidKey
  | some public_key =>
    .ok { depth := depth, parent_fingerprint := parent_fingerprint,
          child_number := child_number, chain_code := chain_code,
          public_key := public_key, network := network }

/-- `ExtendedPubKey::from_string`. -/
def ExtendedPubKey.from_string {σ : Type} (pr : Prims σ) (xpub : σ) :
    Except Error ExtendedPubKey :=
  match base58check_decode pr xpub with
  | .error e => .error e
  | .ok data =>
    if data.length ≠ 78 then .error .InvalidExtendedKey
    else
      let version := data.take 4
      if version = Network.Bitcoin.xpub_version then
        ExtendedPubKey.parse_fields pr data Network.Bitcoin
      else if version = Network.Testnet.xpub_version then
        ExtendedPubKey.parse_fields pr data Network.Testnet
      else .error .InvalidExtendedKey

/-- The apostrophe character, the hardened marker of path syntax. -/
def apostrophe : Char := Char.ofNat 39

/-- Decimal digit to its ASCII character. -/
def digitToChar (d : Nat) : Char := Char.ofNat (48 + d)

/-- Big-endian decimal digits of `n` as characters, with explicit fuel
(`n` itself suffices); empty for `n = 0`. -/
def natCharsAux : Nat → Nat → List Char
  | 0, _ => []
  | fuel + 1, n =>
    if n = 0 then [] else natCharsAux fuel (n / 10) ++ [digitToChar (n % 10)]

/-- The decimal display of `n` (Rust `{}` formatting of an integer). -/
def natChars (n : Nat) : List Char :=
  if n = 0 then ['0'] else natCharsAux n n

/-- Model of Rust `str::parse::<u32>`: an optional leading plus sign, then
one or more ASCII digits, value below 2^32. -/
def parseU32 (t : List Char) : Option Nat :=
  let t₁ := if t.head? = some '+' then t.tail else t
  if t₁ ≠ [] ∧ (∀ c ∈ t₁, c.isDigit = true) then
    let v := t₁.foldl (fun a c => a * 10 + (c.toNat - 48)) 0
    if v < 2 ^ 32 then some v else none
  else none

/-- `ChildNumber::from_str`: a token ending in an apostrophe or in h is
hardened; the body must parse as u32 and not exceed `MAX_NORMAL_INDEX`. -/
def ChildNumber.from_str (t : List Char) : Except Error ChildNumber :=
  if t.getLast? = some apostrophe ∨ t.getLast? = some 'h' then
    match parseU32 t.dropLast with
    | none => .error .InvalidDerivationPath
    | some index =>
      if ChildNumber.MAX_NORMAL_INDEX < index then
        .error .InvalidDerivationPath
      else .ok (.Hardened index)
  else
    match parseU32 t with
    | none => .error .InvalidDerivationPath
    | some index =>
      if ChildNumber.MAX_NORMAL_INDEX < index then
        .error .InvalidDerivationPath
      else .ok (.Normal index)

/-- `Display for ChildNumber`: the decimal index, hardened suffixed with an
apostrophe. -/
def ChildNumber.display : ChildNumber → List Char
  | .Normal i => natChars i
  | .Hardened i => natChars i ++ [apostrophe]

/-- A BIP-32 derivation path (src/bip32.rs `DerivationPath`). -/
structure DerivationPath where
  path : List ChildNumber
deriving DecidableEq, Repr

/-- The `collect::<Result<Vec<ChildNumber>, Error>>` of path parsing:
parse each token in order, stopping at the first error. -/
def parse_children : List (List Char) → Except Error (List ChildNumber)
  | [] => .ok []
  | t :: ts =>
    match ChildNumber.from_str t with
    | .error e => .error e
    | .ok c =>
      match parse_children ts with
      | .error e => .error e
      | .ok cs => .ok (c :: cs)

/-- `DerivationPath::from_str`: must start with m; the literal m is the
empty path; otherwise strip the leading m and slash and parse the
slash-separated non-empty tokens. -/
def DerivationPath.from_str (s : List Char) : Except Error DerivationPath :=
  if s.head? ≠ some 'm' then .error .InvalidDerivationPath
  else if s.take 2 = ['m', '/'] then
    match parse_children (((s.drop 2).splitOn '/').filter
        (fun t => !t.isEmpty)) with
    | .error e => .error e
    | .ok cs => .ok ⟨cs⟩
  else if s = ['m'] then .ok ⟨[]⟩
  else .error .InvalidDerivationPath

/-- `Display for DerivationPath`: m, then a slash and the element display
for each element. -/
def DerivationPath.display (p : DerivationPath) : List Char :=
  'm' :: p.path.flatMap (fun c => '/' :: c.display)

/-- `ExtendedPrivKey::derive_path`. -/
def ExtendedPrivKey.derive_path {σ : Type} (pr : Prims σ)
    (self : ExtendedPrivKey) (path : DerivationPath) :
    Except Error ExtendedPrivKey :=
  self.derive_list pr path.path

/-- `ExtendedPubKey::derive_path`. -/
def ExtendedPubKey.derive_path {σ : Type} (pr : Prims σ)
    (self : ExtendedPubKey) (path : DerivationPath) :
    Except Error ExtendedPubKey :=
  self.derive_list pr path.path

/-- BIP-44 purpose level (src/bip44.rs `Purpose`). -/
structure Purpose where
  val : Nat
deriving DecidableEq, Repr

/-- `Purpose::BIP44`. -/
def Purpose.BIP44 : Purpose := ⟨44⟩

/-- `Purpose::child_number`. -/
def Purpose.child_number (p : Purpose) : ChildNumber := .Hardened p.val

/-- BIP-44 coin type (src/bip44.rs `CoinType`). -/
structure CoinType where
  val : Nat
deriving DecidableEq, Repr

/-- `CoinType::BITCOIN`. -/
def CoinType.BITCOIN : CoinType := ⟨0⟩

/-- `CoinType::child_number`. -/
def CoinType.child_number (c : CoinType) : ChildNumber := .Hardened c.val

/-- BIP-44 account level (src/bip44.rs `AccountLevel`). -/
structure AccountLevel where
  val : Nat
deriving DecidableEq, Repr

/-- `AccountLevel::child_number`. -/
def AccountLevel.child_number (a : AccountLevel) : ChildNumber :=
  .Hardened a.val

/-- BIP-44 change level (src/bip44.rs `Change`). -/
inductive Change where
  | External
  | Internal
deriving DecidableEq, Repr

/-- `Change::child_number`: External is 0, Internal is 1, both normal. -/
def Change.child_number : Change → ChildNumber
  | .External => .Normal 0
  | .Internal => .Normal 1

/-- BIP-44 address index (src/bip44.rs `AddressIndex`). -/
structure AddressIndex where
  val : Nat
deriving DecidableEq, Repr

/-- `AddressIndex::child_number`. -/
def AddressIndex.child_number (i : AddressIndex) : ChildNumber :=
  .Normal i.val

/-- A five-level BIP-44 path (src/bip44.rs `Bip44Path`). -/
structure Bip44Path where
  purpose : Purpose
  coin_type : CoinType
  account : AccountLevel
  change : Change
  address_index : AddressIndex
deriving DecidableEq, Repr

/-- `Bip44Path::to_derivation_path`. -/
def Bip44Path.to_derivation_path (b : Bip44Path) : DerivationPath :=
  ⟨[b.purpose.child_number, b.coin_type.child_number,
    b.account.child_number, b.change.child_number,
    b.address_index.child_number]⟩

/-- Well-formedness of an extended private key value: field widths as in
the Rust types, and the secp256k1 scalar invariant. -/
def ExtendedPrivKey.Valid (k : ExtendedPrivKey) : Prop :=
  k.depth < 256 ∧ k.parent_fingerprint.length = 4 ∧
    (∀ b ∈ k.parent_fingerprint, b < 256) ∧ k.child_number < 2 ^ 32 ∧
    k.chain_code.length = 32 ∧ (∀ b ∈ k.chain_code, b < 256) ∧
    0 < k.private_key ∧ k.private_key < nOrder

/-- Well-formedness of an extended public key value. -/
def ExtendedPubKey.Valid (k : ExtendedPubKey) : Prop :=
  k.depth < 256 ∧ k.parent_fingerprint.length = 4 ∧
    (∀ b ∈ k.parent_fingerprint, b < 256) ∧ k.child_number < 2 ^ 32 ∧
    k.chain_code.length = 32 ∧ (∀ b ∈ k.chain_code, b < 256) ∧
    0 < k.public_key ∧ k.public_key < nOrder

/-- A concrete instantiation of the abstract primitives, used to evaluate
the development on closed inputs: the dummy hash functions are constant
with correctly-shaped output, the point codec is the tag byte 2 followed
by the 32-byte scalar, and the bs58 codec is the identity. -/
def examplePrims : Prims (List Nat) where
  hmac_sha512 := fun _ _ => List.replicate 31 0 ++ 1 :: List.replicate 32 7
  sha256 := fun _ => List.replicate 32 5
  serP := fun p => 2 :: ser256 p
  pub_from_slice := fun l =>
    if l.length = 33 ∧ l.head? = some 2 ∧ 0 < parseBE l.tail ∧
        parseBE l.tail < nOrder then
      some (parseBE l.tail)
    else none
  b58_encode := fun l => l
  b58_decode := fun l => some l

/-- A second instantiation whose HMAC is all zero bytes, exercising the
`I_L = 0` corner of child derivation. -/
def zeroHmacPrims : Prims (List Nat) :=
  { examplePrims with hmac_sha512 := fun _ _ => List.replicate 64 0 }

/-- A concrete well-formed extended private key used to evaluate the
development on closed inputs. -/
def exampleKey : ExtendedPrivKey :=
  { depth := 0, parent_fingerprint := [0, 0, 0, 0], child_number := 0,
    chain_code := List.replicate 32 9, private_key := 5,
    network := .Bitcoin }

/-- Its public projection. -/
def examplePub : ExtendedPubKey := exampleKey.to_extended_public_key

/-- A concrete extended public key of maximal depth 255. -/
def deepPub : ExtendedPubKey :=
  { depth := 255, parent_fingerprint := [0, 0, 0, 0], child_number := 0,
    chain_code := List.replicate 32 9, public_key := 1,
    network := .Bitcoin }

/-- The child of `exampleKey` at Hardened(0) under `examplePrims`. -/
def exampleChild : ExtendedPrivKey :=
  { depth := 1, parent_fingerprint := [5, 5, 5, 5],
    child_number := 2147483648, chain_code := List.replicate 32 7,
    private_key := 6, network := .Bitcoin }

/-- The child of `exampleKey` at Normal(0) under `examplePrims`. -/
def exampleChildNormal : ExtendedPrivKey :=
  { depth := 1, parent_fingerprint := [5, 5, 5, 5], child_number := 0,
    chain_code := List.replicate 32 7, private_key := 6,
    network := .Bitcoin }

/-- The child of `examplePub` at Normal(0) under `examplePrims`. -/
def exampleChildPub : ExtendedPubKey :=
  { depth := 1, parent_fingerprint := [5, 5, 5, 5], child_number := 0,
    chain_code := List.replicate 32 7, public_key := 6,
    network := .Bitcoin }

theorem serBE_length (w k : Nat) : (serBE w k).length = w := by
  induction w generalizing k with
  | zero => rfl
  | succ w ih => simp [serBE, ih]

theorem serBE_bytes_lt (w k : Nat) : ∀ b ∈ serBE w k, b < 256 := by
  induction w generalizing k with
  | zero => simp [serBE]
  | succ w ih =>
    intro b hb
    simp only [serBE, List.mem_append, List.mem_singleton] at hb
    rcases hb with h | h
    · exact ih _ _ h
    · omega

theorem parseBE_serBE (w k : Nat) : parseBE (serBE w k) = k % 256 ^ w := by
  induction w generalizing k with
  | zero => simp [serBE, parseBE, Nat.mod_one]
  | succ w ih =>
    have hstep : parseBE (serBE (w + 1) k)
        = parseBE (serBE w (k / 256)) * 256 + k % 256 := by
      simp [parseBE, serBE, List.foldl_append]
    rw [hstep, ih, pow_succ, mul_comm (256 ^ w) 256, Nat.mod_mul]
    omega

theorem nOrder_lt : nOrder < 2 ^ 256 := by decide

theorem parseBE_ser256 (k : Nat) (h : k < nOrder) : parseBE (ser256 k) = k := by
  have h2 : k < 2 ^ 256 := lt_trans h nOrder_lt
  have : (256 : Nat) ^ 32 = 2 ^ 256 := by norm_num
  rw [ser256, parseBE_serBE, this, Nat.mod_eq_of_lt h2]

theorem parseBE_ser32 (k : Nat) (h : k < 2 ^ 32) : parseBE (ser32 k) = k := by
  have : (256 : Nat) ^ 4 = 2 ^ 32 := by norm_num
  rw [ser32, parseBE_serBE, this, Nat.mod_eq_of_lt h]

theorem examplePrims_wf : examplePrims.Wf := by
  constructor
  · intro k d; rfl
  · intro d; rfl
  · intro p; simp [examplePrims, serBE_length, ser256]
  · intro l; rfl
  · intro p hp hp'
    have hrt : parseBE (serBE 32 p) = p := parseBE_ser256 p hp'
    simp [examplePrims, serBE_length, ser256, hrt, hp, hp']

theorem zeroHmacPrims_wf : zeroHmacPrims.Wf := by
  constructor
  · intro k d; rfl
  · intro d; rfl
  · intro p
    simp [zeroHmacPrims, examplePrims, serBE_length, ser256]
  · intro l; rfl
  · intro p hp hp'
    have hrt : parseBE (serBE 32 p) = p := parseBE_ser256 p hp'
    simp [zeroHmacPrims, examplePrims, serBE_length, ser256, hrt, hp, hp']




theorem derive_child_priv_cases {σ : Type} (pr : Prims σ)
    (k : ExtendedPrivKey) (c : ChildNumber) :
    k.derive_child pr c =
      (if ((pr.hmac_sha512 k.chain_code (ckd_input pr k c)).take 32).length
            = 32 ∧
          0 < parseBE ((pr.hmac_sha512 k.chain_code
            (ckd_input pr k c)).take 32) ∧
          parseBE ((pr.hmac_sha512 k.chain_code
            (ckd_input pr k c)).take 32) < nOrder then
        if (parseBE ((pr.hmac_sha512 k.chain_code
              (ckd_input pr k c)).take 32) + k.private_key) % nOrder = 0 then
          .error .InvalidKey
        else
          .ok { depth := (k.depth + 1) % 256,
                parent_fingerprint := (pr.sha256 (pr.serP
                  (PublicKey.from_secret_key k.private_key))).take 4,
                child_number := c.to_u32,
                chain_code := ((pr.hmac_sha512 k.chain_code
                  (ckd_input pr k c)).drop 32).take 32,
                private_key := (parseBE ((pr.hmac_sha512 k.chain_code
                  (ckd_input pr k c)).take 32) + k.private_key) % nOrder,
                network := k.network }
       else .error .InvalidKey) := by
  simp only [ExtendedPrivKey.derive_child, SecretKey.from_slice,
    SecretKey.add_tweak, ckd_input]
  split_ifs <;> simp_all

theorem derive_child_pub_cases {σ : Type} (pr : Prims σ)
    (key : ExtendedPubKey) (c : ChildNumber) :
    key.derive_child pr c =
      (if c.is_hardened then .error .HardenedDerivationRequiresPrivateKey
       else if ((pr.hmac_sha512 key.chain_code
              (pr.serP key.public_key ++ ser32 c.to_u32)).take 32).length
                = 32 ∧
            0 < parseBE ((pr.hmac_sha512 key.chain_code
              (pr.serP key.public_key ++ ser32 c.to_u32)).take 32) ∧
            parseBE ((pr.hmac_sha512 key.chain_code
              (pr.serP key.public_key ++ ser32 c.to_u32)).take 32)
                < nOrder then
        if (key.public_key + parseBE ((pr.hmac_sha512 key.chain_code
              (pr.serP key.public_key ++ ser32 c.to_u32)).take 32)) % nOrder
              = 0 then
          .error .InvalidKey
        else
          .ok { depth := (key.depth + 1) % 256,
                parent_fingerprint :=
                  (pr.sha256 (pr.serP key.public_key)).take 4,
                child_number := c.to_u32,
                chain_code := ((pr.hmac_sha512 key.chain_code
                  (pr.serP key.public_key ++ ser32 c.to_u32)).drop 32).take 32,
                public_key := (key.public_key + parseBE
                  ((pr.hmac_sha512 key.chain_code
                    (pr.serP key.public_key ++ ser32 c.to_u32)).take 32))
                      % nOrder,
                network := key.network }
       else .error .InvalidKey) := by
  simp only [ExtendedPubKey.derive_child, SecretKey.from_slice,
    PublicKey.from_secret_key, PublicKey.combine]
  split_ifs <;> simp_all

/-- C1: CKDpriv postcondition.  A successful `derive_child` returns the
chain code I_R, the private key (I_L + k_par) mod n, the raw 32-bit child
index, and as parent fingerprint the first 4 bytes of SHA-256 of the
parent's compressed public key, where I = HMAC-SHA512(c_par, input) and
input is 0x00 ‖ ser256(k_par) ‖ ser32(i) for a hardened child and
serP(point(k_par)) ‖ ser32(i) for a normal child, i big-endian. -/
theorem c1_ckdpriv_postcondition {σ : Type} (pr : Prims σ) (hWf : pr.Wf)
    (k : ExtendedPrivKey) (c : ChildNumber) (child : ExtendedPrivKey)
    (h : k.derive_child pr c = .ok child) :
    child.chain_code =
        (pr.hmac_sha512 k.chain_code (ckd_input pr k c)).drop 32 ∧
      child.private_key =
        (parseBE ((pr.hmac_sha512 k.chain_code (ckd_input pr k c)).take 32)
          + k.private_key) % nOrder ∧
      child.child_number = c.to_u32 ∧
      child.parent_fingerprint =
        (pr.sha256 (pr.serP (PublicKey.from_secret_key
          k.private_key))).take 4 := by
  have hlen : (pr.hmac_sha512 k.chain_code (ckd_input pr k c)).length = 64 :=
    hWf.hmac_len _ _
  have hdrop :
      ((pr.hmac_sha512 k.chain_code (ckd_input pr k c)).drop 32).take 32 =
        (pr.hmac_sha512 k.chain_code (ckd_input pr k c)).drop 32 :=
    List.take_of_length_le (by simp [hlen])
  rw [derive_child_priv_cases] at h
  split_ifs at h with h1 h2
  rw [Except.ok.injEq] at h
  rw [← h]
  exact ⟨hdrop, rfl, rfl, rfl⟩

/-- C1 witness: concrete hardened derivation under `examplePrims`. -/
theorem c1_ckdpriv_postcondition_witness :
    ExtendedPrivKey.derive_child examplePrims exampleKey (.Hardened 0) =
        .ok exampleChild ∧
      exampleChild.chain_code =
        (examplePrims.hmac_sha512 exampleKey.chain_code
          (ckd_input examplePrims exampleKey (.Hardened 0))).drop 32 :=
  ⟨by decide,
    (c1_ckdpriv_postcondition examplePrims examplePrims_wf exampleKey
      (.Hardened 0) exampleChild (by decide)).1⟩

/-- C2 (amended): CKDpriv fails, always with `InvalidKey`, exactly when
I_L = 0 or I_L ≥ n or the child scalar (I_L + k_par) mod n is 0 — the
secp256k1 scalar parse of I_L rejects the zero scalar as well, a case the
claim as stated omits; in every other case it succeeds, and no error is
recovered internally. -/
theorem c2_ckdpriv_failure_condition {σ : Type} (pr : Prims σ) (hWf : pr.Wf)
    (k : ExtendedPrivKey) (c : ChildNumber) :
    (k.derive_child pr c = .error .InvalidKey ↔
      (parseBE ((pr.hmac_sha512 k.chain_code (ckd_input pr k c)).take 32) = 0 ∨
        nOrder ≤
          parseBE ((pr.hmac_sha512 k.chain_code (ckd_input pr k c)).take 32) ∨
        (parseBE ((pr.hmac_sha512 k.chain_code (ckd_input pr k c)).take 32) +
          k.private_key) % nOrder = 0)) ∧
    (¬(parseBE ((pr.hmac_sha512 k.chain_code (ckd_input pr k c)).take 32) = 0 ∨
        nOrder ≤
          parseBE ((pr.hmac_sha512 k.chain_code (ckd_input pr k c)).take 32) ∨
        (parseBE ((pr.hmac_sha512 k.chain_code (ckd_input pr k c)).take 32) +
          k.private_key) % nOrder = 0) →
      (k.derive_child pr c).isOk = true) := by
  have hlen32 :
      ((pr.hmac_sha512 k.chain_code (ckd_input pr k c)).take 32).length
        = 32 := by
    rw [List.length_take, hWf.hmac_len]
    rfl
  rw [derive_child_priv_cases]
  split_ifs with h1 h2
  · constructor
    · simp only [true_iff]
      exact Or.inr (Or.inr h2)
    · intro hn
      exact absurd (Or.inr (Or.inr h2)) hn
  · constructor
    · constructor
      · intro hfalse
        simp at hfalse
      · intro hd
        obtain ⟨hl, hpos, hlt⟩ := h1
        rcases hd with h0 | hge | hz
        · omega
        · omega
        · exact absurd hz h2
    · intro _
      rfl
  · constructor
    · simp only [true_iff]
      rcases Decidable.em (parseBE ((pr.hmac_sha512 k.chain_code
          (ckd_input pr k c)).take 32) = 0) with h0 | h0
      · exact Or.inl h0
      · refine Or.inr (Or.inl ?_)
        by_contra hc
        exact h1 ⟨hlen32, by omega, by omega⟩
    · intro hn
      exfalso
      apply hn
      rcases Decidable.em (parseBE ((pr.hmac_sha512 k.chain_code
          (ckd_input pr k c)).take 32) = 0) with h0 | h0
      · exact Or.inl h0
      · refine Or.inr (Or.inl ?_)
        by_contra hc
        exact h1 ⟨hlen32, by omega, by omega⟩

/-- C2 counterexample: under an HMAC oracle whose output is all zero
bytes, I_L = 0, the claim's stated failure condition (I_L ≥ n or
k_child = 0) is false — the child scalar would be k_par ≠ 0 — yet
`derive_child` fails with `InvalidKey`, because the secp256k1 scalar
parse of I_L rejects zero. -/
theorem c2_ckdpriv_failure_counterexample :
    ExtendedPrivKey.derive_child zeroHmacPrims exampleKey (.Normal 0) =
        .error .InvalidKey ∧
      parseBE ((zeroHmacPrims.hmac_sha512 exampleKey.chain_code
        (ckd_input zeroHmacPrims exampleKey (.Normal 0))).take 32) = 0 ∧
      ¬(nOrder ≤ parseBE ((zeroHmacPrims.hmac_sha512 exampleKey.chain_code
          (ckd_input zeroHmacPrims exampleKey (.Normal 0))).take 32) ∨
        (parseBE ((zeroHmacPrims.hmac_sha512 exampleKey.chain_code
          (ckd_input zeroHmacPrims exampleKey (.Normal 0))).take 32) +
          exampleKey.private_key) % nOrder = 0) := by
  decide

/-- C2 witness: a concrete derivation that the amended condition lets
through succeeds. -/
theorem c2_ckdpriv_failure_condition_witness :
    (ExtendedPrivKey.derive_child examplePrims exampleKey
      (.Normal 0)).isOk = true :=
  (c2_ckdpriv_failure_condition examplePrims examplePrims_wf exampleKey
    (.Normal 0)).2 (by decide)

/-- C3: `new_master` fails with `InvalidSeed` on seeds shorter than 16
bytes; otherwise, with I = HMAC-SHA512(key = ASCII Bitcoin seed,
data = seed), it fails with `InvalidKey` when I_L is zero or ≥ n, and
otherwise returns private key I_L, chain code I_R, depth 0, zero parent
fingerprint, child number 0. -/
theorem c3_new_master_spec {σ : Type} (pr : Prims σ) (hWf : pr.Wf)
    (seed : List Nat) (net : Network) :
    (seed.length < 16 →
      ExtendedPrivKey.new_master pr seed net = .error .InvalidSeed) ∧
    (16 ≤ seed.length →
      (parseBE ((pr.hmac_sha512 bitcoinSeedKey seed).take 32) = 0 ∨
        nOrder ≤ parseBE ((pr.hmac_sha512 bitcoinSeedKey seed).take 32)) →
      ExtendedPrivKey.new_master pr seed net = .error .InvalidKey) ∧
    (16 ≤ seed.length →
      0 < parseBE ((pr.hmac_sha512 bitcoinSeedKey seed).take 32) →
      parseBE ((pr.hmac_sha512 bitcoinSeedKey seed).take 32) < nOrder →
      ExtendedPrivKey.new_master pr seed net =
        .ok { depth := 0, parent_fingerprint := [0, 0, 0, 0],
              child_number := 0,
              chain_code := (pr.hmac_sha512 bitcoinSeedKey seed).drop 32,
              private_key :=
                parseBE ((pr.hmac_sha512 bitcoinSeedKey seed).take 32),
              network := net }) := by
  have hlen : (pr.hmac_sha512 bitcoinSeedKey seed).length = 64 :=
    hWf.hmac_len _ _
  have hlen32 :
      ((pr.hmac_sha512 bitcoinSeedKey seed).take 32).length = 32 := by
    rw [List.length_take, hlen]
    rfl
  have hdrop :
      ((pr.hmac_sha512 bitcoinSeedKey seed).drop 32).take 32 =
        (pr.hmac_sha512 bitcoinSeedKey seed).drop 32 :=
    List.take_of_length_le (by simp [hlen])
  refine ⟨fun hshort => ?_, fun hlong hbad => ?_, fun hlong hpos hlt => ?_⟩
  · simp [ExtendedPrivKey.new_master, hshort]
  · simp only [ExtendedPrivKey.new_master, SecretKey.from_slice]
    rw [if_neg (by omega)]
    rw [if_neg (by rintro ⟨hl, hp, hq⟩; omega)]
  · simp only [ExtendedPrivKey.new_master, SecretKey.from_slice]
    rw [if_neg (by omega)]
    rw [if_pos ⟨hlen32, hpos, hlt⟩]
    rw [hdrop]

/-- C3 witness: the three regimes at concrete seeds. -/
theorem c3_new_master_spec_witness :
    ExtendedPrivKey.new_master examplePrims (List.replicate 15 1) .Bitcoin =
        .error .InvalidSeed ∧
      ExtendedPrivKey.new_master zeroHmacPrims (List.replicate 16 1)
          .Bitcoin = .error .InvalidKey ∧
      ExtendedPrivKey.new_master examplePrims (List.replicate 16 1)
          .Bitcoin =
        .ok { depth := 0, parent_fingerprint := [0, 0, 0, 0],
              child_number := 0, chain_code := List.replicate 32 7,
              private_key := 1, network := .Bitcoin } := by
  refine ⟨(c3_new_master_spec examplePrims examplePrims_wf
      (List.replicate 15 1) .Bitcoin).1 (by decide),
    (c3_new_master_spec zeroHmacPrims zeroHmacPrims_wf
      (List.replicate 16 1) .Bitcoin).2.1 (by decide)
      (Or.inl (by decide)), ?_⟩
  have h := (c3_new_master_spec examplePrims examplePrims_wf
    (List.replicate 16 1) .Bitcoin).2.2 (by decide) (by decide) (by decide)
  rw [h]
  decide

/-- C5: public projection commutes with non-hardened derivation: when
CKDpriv succeeds at Normal(i), projecting its result equals CKDpub of the
projected parent at Normal(i), field-wise. -/
theorem c5_projection_commutes {σ : Type} (pr : Prims σ)
    (k : ExtendedPrivKey) (i : Nat) (child : ExtendedPrivKey)
    (h : k.derive_child pr (.Normal i) = .ok child) :
    ExtendedPubKey.derive_child pr k.to_extended_public_key (.Normal i) =
      .ok child.to_extended_public_key := by
  rw [derive_child_priv_cases] at h
  split_ifs at h with h1 h2
  rw [Except.ok.injEq] at h
  rw [derive_child_pub_cases]
  have hin : pr.serP (k.to_extended_public_key).public_key ++
      ser32 ((ChildNumber.Normal i).to_u32) = ckd_input pr k (.Normal i) := by
    simp [ckd_input, ChildNumber.is_hardened,
      ExtendedPrivKey.to_extended_public_key]
  have hcc : (k.to_extended_public_key).chain_code = k.chain_code := rfl
  rw [hcc, hin]
  simp only [ChildNumber.is_hardened, Bool.false_eq_true, if_false]
  rw [if_pos h1]
  have hpk : (k.to_extended_public_key).public_key = k.private_key := rfl
  rw [hpk]
  rw [if_neg (by rw [Nat.add_comm]; exact h2)]
  rw [← h]
  simp [ExtendedPrivKey.to_extended_public_key, PublicKey.from_secret_key,
    Nat.add_comm]

/-- C5 witness: concrete commutation at Normal(0) under `examplePrims`. -/
theorem c5_projection_commutes_witness :
    ExtendedPubKey.derive_child examplePrims
        exampleKey.to_extended_public_key (.Normal 0) =
      .ok exampleChildNormal.to_extended_public_key :=
  c5_projection_commutes examplePrims exampleKey 0 exampleChildNormal
    (by decide)

theorem derive_list_pub_append_hardened {σ : Type} (pr : Prims σ) (i : Nat)
    (rest : List ChildNumber) :
    ∀ (pre : List ChildNumber) (key key' : ExtendedPubKey),
      key.derive_list pr pre = .ok key' →
      key.derive_list pr (pre ++ ChildNumber.Hardened i :: rest) =
        .error .HardenedDerivationRequiresPrivateKey := by
  intro pre
  induction pre with
  | nil =>
    intro key key' _
    simp [ExtendedPubKey.derive_list, ChildNumber.is_hardened]
  | cons c cs ih =>
    intro key key' h
    cases c with
    | Hardened j =>
      rw [ExtendedPubKey.derive_list] at h
      simp [ChildNumber.is_hardened] at h
    | Normal j =>
      rw [List.cons_append]
      rw [ExtendedPubKey.derive_list] at h ⊢
      simp only [ChildNumber.is_hardened, Bool.false_eq_true, if_false] at h ⊢
      cases hd : key.derive_child pr (ChildNumber.Normal j) with
      | error e =>
        rw [hd] at h
        simp at h
      | ok k2 =>
        rw [hd] at h
        exact ih k2 key' h

/-- C6: `ExtendedPubKey::derive_child` rejects every hardened child with
`HardenedDerivationRequiresPrivateKey` (for every primitive
instantiation, i.e. without any HMAC or curve computation), and
`derive_path` fails with the same error at the first hardened element
encountered: whenever derivation through the non-hardened prefix
succeeds, the full path fails with that error. -/
theorem c6_hardened_rejection_pub {σ : Type} (pr : Prims σ)
    (key key' : ExtendedPubKey) (i : Nat) (pre rest : List ChildNumber)
    (h : key.derive_path pr ⟨pre⟩ = .ok key') :
    key.derive_child pr (.Hardened i) =
        .error .HardenedDerivationRequiresPrivateKey ∧
      key.derive_path pr ⟨pre ++ .Hardened i :: rest⟩ =
        .error .HardenedDerivationRequiresPrivateKey := by
  constructor
  · simp [ExtendedPubKey.derive_child, ChildNumber.is_hardened]
  · exact derive_list_pub_append_hardened pr i rest pre key key' h

/-- C6 witness: the rejection at a concrete key and path. -/
theorem c6_hardened_rejection_pub_witness :
    ExtendedPubKey.derive_child examplePrims examplePub (.Hardened 0) =
        .error .HardenedDerivationRequiresPrivateKey ∧
      ExtendedPubKey.derive_path examplePrims examplePub
          ⟨[] ++ .Hardened 0 :: []⟩ =
        .error .HardenedDerivationRequiresPrivateKey :=
  c6_hardened_rejection_pub examplePrims examplePub examplePub 0 [] [] rfl

/-- C7 (amended): for parents of depth at most 254, every successful
CKDpriv / CKDpub yields depth = parent.depth + 1; at depth 255 the u8
increment overflows (wrapping to 0, or panicking under debug overflow
checks), so the claim's range cannot include 255. -/
theorem c7_depth_increment {σ : Type} (pr : Prims σ)
    (kpriv : ExtendedPrivKey) (kpub : ExtendedPubKey) (c c' : ChildNumber)
    (child : ExtendedPrivKey) (child' : ExtendedPubKey)
    (hdp : kpriv.depth ≤ 254) (hdq : kpub.depth ≤ 254)
    (h : kpriv.derive_child pr c = .ok child)
    (h' : kpub.derive_child pr c' = .ok child') :
    child.depth = kpriv.depth + 1 ∧ child'.depth = kpub.depth + 1 := by
  rw [derive_child_priv_cases] at h
  rw [derive_child_pub_cases] at h'
  split_ifs at h with h1 h2
  split_ifs at h' with h3 h4 h5
  rw [Except.ok.injEq] at h h'
  constructor
  · rw [← h]
    show (kpriv.depth + 1) % 256 = kpriv.depth + 1
    exact Nat.mod_eq_of_lt (by omega)
  · rw [← h']
    show (kpub.depth + 1) % 256 = kpub.depth + 1
    exact Nat.mod_eq_of_lt (by omega)

/-- C7 counterexample: from a parent of depth 255, `derive_child`
succeeds but the u8 depth wraps to 0, not 255 + 1. -/
theorem c7_depth_increment_counterexample :
    (ExtendedPubKey.derive_child examplePrims deepPub (.Normal 0)).map
        (fun c => c.depth) = .ok 0 ∧
      deepPub.depth = 255 := by
  decide

/-- C7 witness: concrete depth increments on both sides. -/
theorem c7_depth_increment_witness :
    exampleChild.depth = exampleKey.depth + 1 ∧
      exampleChildPub.depth = examplePub.depth + 1 :=
  c7_depth_increment examplePrims exampleKey examplePub (.Hardened 0)
    (.Normal 0) exampleChild exampleChildPub (by decide) (by decide)
    (by decide) (by decide)

/-- C9: `Bip44Path::to_derivation_path` returns exactly five child
numbers, in order Hardened(purpose), Hardened(coin), Hardened(account),
Normal(change) with External as 0 and Internal as 1, Normal(index). -/
theorem c9_bip44_projection_shape (b : Bip44Path) :
    (b.to_derivation_path).path.length = 5 ∧
      (b.to_derivation_path).path =
        [.Hardened b.purpose.val, .Hardened b.coin_type.val,
          .Hardened b.account.val,
          .Normal (match b.change with | .External => 0 | .Internal => 1),
          .Normal b.address_index.val] := by
  obtain ⟨p, c, a, ch, i⟩ := b
  cases ch <;>
    simp [Bip44Path.to_derivation_path, Purpose.child_number,
      CoinType.child_number, AccountLevel.child_number,
      Change.child_number, AddressIndex.child_number]

theorem splitOn_replicate_sep (k : Nat) :
    (List.replicate k '/').splitOn '/' =
      List.replicate (k + 1) ([] : List Char) := by
  induction k with
  | zero => rfl
  | succ k ih =>
    rw [List.splitOn] at ih ⊢
    rw [List.replicate_succ, List.splitOnP_cons]
    simp only [beq_self_eq_true, if_true]
    rw [ih]
    rfl

/-- C10: `DerivationPath::from_str` accepts the string consisting of m, a
slash, and any further run of slashes with no tokens, returning the empty
path, the same result as parsing the literal m. -/
theorem c10_empty_segment_paths (k : Nat) :
    DerivationPath.from_str ('m' :: '/' :: List.replicate k '/') =
        .ok ⟨[]⟩ ∧
      DerivationPath.from_str ['m'] = .ok ⟨[]⟩ := by
  constructor
  · rw [DerivationPath.from_str]
    rw [if_neg (by simp)]
    rw [if_pos (show List.take 2 ('m' :: '/' :: List.replicate k '/')
      = ['m', '/'] from rfl)]
    have hd : ('m' :: '/' :: List.replicate k '/').drop 2 =
        List.replicate k '/' := rfl
    rw [hd, splitOn_replicate_sep]
    simp [List.filter_replicate, parse_children]
  · rfl

theorem digitToChar_toNat (d : Nat) (h : d < 10) :
    (digitToChar d).toNat = 48 + d := by
  interval_cases d <;> decide

theorem digitToChar_isDigit (d : Nat) (h : d < 10) :
    (digitToChar d).isDigit = true := by
  interval_cases d <;> decide

theorem digitToChar_ne (d : Nat) (h : d < 10) :
    digitToChar d ≠ '/' ∧ digitToChar d ≠ 'h' ∧ digitToChar d ≠ '+' ∧
      digitToChar d ≠ apostrophe := by
  interval_cases d <;> decide

theorem natCharsAux_mem (fuel : Nat) :
    ∀ (n : Nat) (c : Char), c ∈ natCharsAux fuel n →
      ∃ d, d < 10 ∧ c = digitToChar d := by
  induction fuel with
  | zero => intro n c hc; simp [natCharsAux] at hc
  | succ fuel ih =>
    intro n c hc
    rw [natCharsAux] at hc
    by_cases hn : n = 0
    · rw [if_pos hn] at hc
      simp at hc
    · rw [if_neg hn] at hc
      rcases List.mem_append.1 hc with h1 | h1
      · exact ih _ _ h1
      · simp only [List.mem_singleton] at h1
        exact ⟨n % 10, Nat.mod_lt _ (by omega), h1⟩

theorem natChars_mem (n : Nat) (c : Char) (hc : c ∈ natChars n) :
    ∃ d, d < 10 ∧ c = digitToChar d := by
  rw [natChars] at hc
  by_cases hn : n = 0
  · rw [if_pos hn] at hc
    simp only [List.mem_singleton] at hc
    exact ⟨0, by omega, hc⟩
  · rw [if_neg hn] at hc
    exact natCharsAux_mem n n c hc

theorem natChars_isDigit (n : Nat) (c : Char) (hc : c ∈ natChars n) :
    c.isDigit = true := by
  obtain ⟨d, hd, rfl⟩ := natChars_mem n c hc
  exact digitToChar_isDigit d hd

theorem natChars_ne_nil (n : Nat) : natChars n ≠ [] := by
  rw [natChars]
  by_cases hn : n = 0
  · rw [if_pos hn]
    simp
  · rw [if_neg hn]
    obtain ⟨m, rfl⟩ : ∃ m, n = m + 1 := ⟨n - 1, by omega⟩
    rw [natCharsAux, if_neg hn]
    exact List.append_ne_nil_of_right_ne_nil _ (by simp)

theorem natCharsAux_foldl (fuel : Nat) :
    ∀ (n a : Nat), n ≤ fuel →
      (natCharsAux fuel n).foldl (fun x c => x * 10 + (c.toNat - 48)) a =
        a * 10 ^ (natCharsAux fuel n).length + n := by
  induction fuel with
  | zero =>
    intro n a hn
    have : n = 0 := by omega
    subst this
    simp [natCharsAux]
  | succ fuel ih =>
    intro n a hn
    by_cases hz : n = 0
    · subst hz
      simp [natCharsAux]
    · rw [natCharsAux, if_neg hz]
      rw [List.foldl_append]
      simp only [List.foldl_cons, List.foldl_nil]
      have hd10 : n % 10 < 10 := Nat.mod_lt _ (by omega)
      rw [digitToChar_toNat _ hd10]
      rw [ih (n / 10) a (by omega)]
      rw [List.length_append, List.length_singleton]
      have he : 48 + n % 10 - 48 = n % 10 := by omega
      rw [he, pow_succ]
      have hx : (a * 10 ^ (natCharsAux fuel (n / 10)).length + n / 10) * 10
          + n % 10 =
          a * (10 ^ (natCharsAux fuel (n / 10)).length * 10) +
            (n / 10 * 10 + n % 10) := by ring
      rw [hx]
      have h2 : n / 10 * 10 + n % 10 = n := by omega
      rw [h2]

theorem parseU32_natChars (n : Nat) (h : n < 2 ^ 32) :
    parseU32 (natChars n) = some n := by
  by_cases hz : n = 0
  · subst hz
    decide
  · have hne : natChars n ≠ [] := natChars_ne_nil n
    have hdig : ∀ c ∈ natChars n, c.isDigit = true := natChars_isDigit n
    have hhead : ¬(natChars n).head? = some '+' := by
      intro hc
      have hmem : '+' ∈ natChars n :=
        List.mem_of_mem_head? (by rw [hc]; rfl)
      have := hdig '+' hmem
      simp at this
    rw [parseU32]
    simp only [hhead, if_false]
    rw [if_pos ⟨hne, hdig⟩]
    have hfold : (natChars n).foldl (fun x c => x * 10 + (c.toNat - 48)) 0
        = n := by
      rw [natChars, if_neg hz]
      rw [natCharsAux_foldl n n 0 (le_refl n)]
      simp
    rw [hfold, if_pos h]

theorem natChars_not_sep (n : Nat) (c : Char) (hc : c ∈ natChars n) :
    c ≠ '/' := by
  obtain ⟨d, hd, rfl⟩ := natChars_mem n c hc
  exact (digitToChar_ne d hd).1

theorem from_str_display (c : ChildNumber)
    (hv : c.index ≤ ChildNumber.MAX_NORMAL_INDEX) :
    ChildNumber.from_str c.display = .ok c := by
  cases c with
  | Normal i =>
    rw [ChildNumber.display, ChildNumber.from_str]
    rw [if_neg ?hlast]
    case hlast =>
      rintro (hl | hl) <;>
      · have hmem := List.mem_of_mem_getLast? (l := natChars i)
          (by rw [hl]; rfl)
        obtain ⟨d, hd, he⟩ := natChars_mem i _ hmem
        exact absurd he.symm (by
          have := digitToChar_ne d hd
          tauto)
    simp only [ChildNumber.index, ChildNumber.MAX_NORMAL_INDEX] at hv
    rw [parseU32_natChars i (by omega)]
    have hle : ¬ ChildNumber.MAX_NORMAL_INDEX < i := by
      simp only [ChildNumber.MAX_NORMAL_INDEX]
      omega
    simp [hle]
  | Hardened i =>
    rw [ChildNumber.display, ChildNumber.from_str]
    rw [if_pos (Or.inl (List.getLast?_concat _))]
    rw [List.dropLast_concat]
    simp only [ChildNumber.index, ChildNumber.MAX_NORMAL_INDEX] at hv
    rw [parseU32_natChars i (by omega)]
    have hle : ¬ ChildNumber.MAX_NORMAL_INDEX < i := by
      simp only [ChildNumber.MAX_NORMAL_INDEX]
      omega
    simp [hle]

theorem display_ne_nil (c : ChildNumber) : c.display ≠ [] := by
  cases c with
  | Normal i => exact natChars_ne_nil i
  | Hardened i =>
    rw [ChildNumber.display]
    exact List.append_ne_nil_of_right_ne_nil _ (by simp)

theorem display_not_sep (c : ChildNumber) : '/' ∉ c.display := by
  cases c with
  | Normal i =>
    intro hm
    exact natChars_not_sep i _ hm rfl
  | Hardened i =>
    intro hm
    rw [ChildNumber.display] at hm
    rcases List.mem_append.1 hm with h1 | h1
    · exact natChars_not_sep i _ h1 rfl
    · simp only [List.mem_singleton] at h1
      exact absurd h1.symm (by decide)

theorem parse_children_map_display (cs : List ChildNumber)
    (hv : ∀ c ∈ cs, c.index ≤ ChildNumber.MAX_NORMAL_INDEX) :
    parse_children (cs.map ChildNumber.display) = .ok cs := by
  induction cs with
  | nil => rfl
  | cons c cs' ih =>
    rw [List.map_cons, parse_children]
    rw [from_str_display c (hv c (by simp))]
    rw [ih (fun x hx => hv x (by simp [hx]))]

theorem flatMap_display_intercalate (c : ChildNumber)
    (cs : List ChildNumber) :
    c.display ++ cs.flatMap (fun x => '/' :: x.display) =
      List.intercalate ['/'] ((c :: cs).map ChildNumber.display) := by
  induction cs generalizing c with
  | nil => simp [List.intercalate]
  | cons d ds ih =>
    have ihd := ih d
    rw [List.flatMap_cons]
    rw [List.map_cons, List.map_cons, List.intercalate,
      List.intersperse_cons_cons, List.flatten_cons, List.flatten_cons]
    rw [show (List.intersperse ['/']
        (d.display :: List.map ChildNumber.display ds)).flatten =
      List.intercalate ['/'] (List.map ChildNumber.display (d :: ds))
      from rfl]
    rw [← ihd]
    simp

/-- C8: path round-trip: for every path whose element indices are at most
2^31 - 1 (including the empty path), parsing the displayed form m then a
slash and each element, hardened elements suffixed with an apostrophe,
returns the path again. -/
theorem c8_path_roundtrip (P : DerivationPath)
    (hv : ∀ c ∈ P.path, c.index ≤ ChildNumber.MAX_NORMAL_INDEX) :
    DerivationPath.from_str P.display = .ok P := by
  obtain ⟨cs⟩ := P
  cases cs with
  | nil => rfl
  | cons c cs' =>
    rw [DerivationPath.display]
    rw [DerivationPath.from_str]
    rw [if_neg (by simp)]
    rw [List.flatMap_cons]
    rw [if_pos (show List.take 2 ('m' :: (('/' :: ChildNumber.display c) ++
        List.flatMap cs' fun x => '/' :: x.display)) = ['m', '/'] from rfl)]
    have hdrop : List.drop 2 ('m' :: (('/' :: ChildNumber.display c) ++
        List.flatMap cs' fun x => '/' :: x.display)) =
        ChildNumber.display c ++ List.flatMap cs'
          fun x => '/' :: x.display := rfl
    rw [hdrop]
    rw [flatMap_display_intercalate]
    rw [List.splitOn_intercalate _ '/' ?no_sep ?nonempty]
    case no_sep =>
      intro l hl
      obtain ⟨x, _, rfl⟩ := List.mem_map.1 hl
      exact display_not_sep x
    case nonempty => simp
    rw [List.filter_eq_self.2 ?keep]
    case keep =>
      intro t ht
      obtain ⟨x, _, rfl⟩ := List.mem_map.1 ht
      simpa using display_ne_nil x
    rw [parse_children_map_display _ (fun x hx => hv x hx)]


/-- C8 witness: the round trip at a concrete two-element path. -/
theorem c8_path_roundtrip_witness :
    DerivationPath.from_str
        (DerivationPath.display ⟨[.Hardened 44, .Normal 12345]⟩) =
      .ok ⟨[.Hardened 44, .Normal 12345]⟩ :=
  c8_path_roundtrip ⟨[.Hardened 44, .Normal 12345]⟩ (by decide)

theorem checksum_length {σ : Type} (pr : Prims σ) (hWf : pr.Wf)
    (data : List Nat) : (checksum pr data).length = 4 := by
  rw [checksum, List.length_take, hash_twice, hWf.sha_len]
  rfl

theorem base58check_decode_encode {σ : Type} (pr : Prims σ) (hWf : pr.Wf)
    (data : List Nat) :
    base58check_decode pr (base58check_encode pr data) = .ok data := by
  have hcs : (checksum pr data).length = 4 := checksum_length pr hWf data
  have hlen : (data ++ checksum pr data).length = data.length + 4 := by
    simp [hcs]
  simp only [base58check_encode, base58check_decode, hWf.b58_roundtrip]
  rw [if_neg (by omega)]
  have hidx : (data ++ checksum pr data).length - 4 = data.length := by
    omega
  rw [hidx]
  rw [List.take_left, List.drop_left]
  simp

theorem parse_fields_priv_layout (ver : List Nat) (d : Nat) (fp : List Nat)
    (cn : Nat) (cc : List Nat) (pk : Nat) (net : Network)
    (hver : ver.length = 4) (hfp : fp.length = 4) (hcc : cc.length = 32)
    (hcn : cn < 2 ^ 32) (hpk0 : 0 < pk) (hpkn : pk < nOrder) :
    ExtendedPrivKey.parse_fields
        (ver ++ ([d] ++ (fp ++ (ser32 cn ++ (cc ++ (0 :: ser256 pk))))))
        net =
      .ok { depth := d, parent_fingerprint := fp, child_number := cn,
            chain_code := cc, private_key := pk, network := net } := by
  have e1 : (ver ++ ([d] ++ (fp ++ (ser32 cn ++
      (cc ++ (0 :: ser256 pk)))))).drop 4 =
      [d] ++ (fp ++ (ser32 cn ++ (cc ++ (0 :: ser256 pk)))) :=
    List.drop_left' hver
  have e2 : (ver ++ ([d] ++ (fp ++ (ser32 cn ++
      (cc ++ (0 :: ser256 pk)))))).drop 5 =
      fp ++ (ser32 cn ++ (cc ++ (0 :: ser256 pk))) := by
    rw [show (5 : Nat) = 4 + 1 from rfl, ← List.drop_drop, e1]
    rfl
  have e3 : (ver ++ ([d] ++ (fp ++ (ser32 cn ++
      (cc ++ (0 :: ser256 pk)))))).drop 9 =
      ser32 cn ++ (cc ++ (0 :: ser256 pk)) := by
    rw [show (9 : Nat) = 5 + 4 from rfl, ← List.drop_drop, e2,
      List.drop_left' hfp]
  have e4 : (ver ++ ([d] ++ (fp ++ (ser32 cn ++
      (cc ++ (0 :: ser256 pk)))))).drop 13 =
      cc ++ (0 :: ser256 pk) := by
    rw [show (13 : Nat) = 9 + 4 from rfl, ← List.drop_drop, e3,
      List.drop_left' (show (ser32 cn).length = 4 by
        simp [ser32, serBE_length])]
  have e5 : (ver ++ ([d] ++ (fp ++ (ser32 cn ++
      (cc ++ (0 :: ser256 pk)))))).drop 45 = 0 :: ser256 pk := by
    rw [show (45 : Nat) = 13 + 32 from rfl, ← List.drop_drop, e4,
      List.drop_left' hcc]
  have e6 : (ver ++ ([d] ++ (fp ++ (ser32 cn ++
      (cc ++ (0 :: ser256 pk)))))).drop 46 = ser256 pk := by
    rw [show (46 : Nat) = 45 + 1 from rfl, ← List.drop_drop, e5]
    rfl
  simp only [ExtendedPrivKey.parse_fields, e1, e2, e3, e4, e5, e6]
  rw [List.take_left' hfp]
  rw [List.take_left' (show (ser32 cn).length = 4 by
    simp [ser32, serBE_length])]
  rw [List.take_left' hcc]
  rw [List.take_of_length_le (show (ser256 pk).length ≤ 32 by
    simp [ser256, serBE_length])]
  rw [if_neg (by simp)]
  simp only [SecretKey.from_slice, parseBE_ser256 pk hpkn,
    parseBE_ser32 cn hcn]
  rw [if_pos ⟨(show (ser256 pk).length = 32 by
    simp [ser256, serBE_length]), hpk0, hpkn⟩]
  simp only [List.singleton_append, List.headD_cons]

theorem parse_fields_pub_layout {σ : Type} (pr : Prims σ) (hWf : pr.Wf)
    (ver : List Nat) (d : Nat) (fp : List Nat)
    (cn : Nat) (cc : List Nat) (p : Nat) (net : Network)
    (hver : ver.length = 4) (hfp : fp.length = 4) (hcc : cc.length = 32)
    (hcn : cn < 2 ^ 32) (hp0 : 0 < p) (hpn : p < nOrder) :
    ExtendedPubKey.parse_fields pr
        (ver ++ ([d] ++ (fp ++ (ser32 cn ++ (cc ++ pr.serP p))))) net =
      .ok { depth := d, parent_fingerprint := fp, child_number := cn,
            chain_code := cc, public_key := p, network := net } := by
  have e1 : (ver ++ ([d] ++ (fp ++ (ser32 cn ++
      (cc ++ pr.serP p))))).drop 4 =
      [d] ++ (fp ++ (ser32 cn ++ (cc ++ pr.serP p))) :=
    List.drop_left' hver
  have e2 : (ver ++ ([d] ++ (fp ++ (ser32 cn ++
      (cc ++ pr.serP p))))).drop 5 =
      fp ++ (ser32 cn ++ (cc ++ pr.serP p)) := by
    rw [show (5 : Nat) = 4 + 1 from rfl, ← List.drop_drop, e1]
    rfl
  have e3 : (ver ++ ([d] ++ (fp ++ (ser32 cn ++
      (cc ++ pr.serP p))))).drop 9 =
      ser32 cn ++ (cc ++ pr.serP p) := by
    rw [show (9 : Nat) = 5 + 4 from rfl, ← List.drop_drop, e2,
      List.drop_left' hfp]
  have e4 : (ver ++ ([d] ++ (fp ++ (ser32 cn ++
      (cc ++ pr.serP p))))).drop 13 = cc ++ pr.serP p := by
    rw [show (13 : Nat) = 9 + 4 from rfl, ← List.drop_drop, e3,
      List.drop_left' (show (ser32 cn).length = 4 by
        simp [ser32, serBE_length])]
  have e5 : (ver ++ ([d] ++ (fp ++ (ser32 cn ++
      (cc ++ pr.serP p))))).drop 45 = pr.serP p := by
    rw [show (45 : Nat) = 13 + 32 from rfl, ← List.drop_drop, e4,
      List.drop_left' hcc]
  simp only [ExtendedPubKey.parse_fields, e1, e2, e3, e4, e5]
  rw [List.take_left' hfp]
  rw [List.take_left' (show (ser32 cn).length = 4 by
    simp [ser32, serBE_length])]
  rw [List.take_left' hcc]
  rw [List.take_of_length_le (le_of_eq (hWf.serP_len p))]
  rw [hWf.pub_parse p hp0 hpn]
  simp only [List.singleton_append, List.headD_cons, parseBE_ser32 cn hcn]

/-- C4: serialization round-trip: for every valid extended private key
and every valid extended public key, `from_string` of `to_string`
succeeds and returns the key unchanged in every field. -/
theorem c4_serialization_roundtrip {σ : Type} (pr : Prims σ) (hWf : pr.Wf)
    (K : ExtendedPrivKey) (hK : K.Valid) (P : ExtendedPubKey)
    (hP : P.Valid) :
    ExtendedPrivKey.from_string pr (K.to_string pr) = .ok K ∧
      ExtendedPubKey.from_string pr (P.to_string pr) = .ok P := by
  constructor
  · obtain ⟨d, fp, cn, cc, pk, net⟩ := K
    obtain ⟨hd, hfp, hfpb, hcn, hcc, hccb, hpk0, hpkn⟩ := hK
    simp only [ExtendedPrivKey.to_string, ExtendedPrivKey.from_string,
      base58check_encode] at *
    rw [show pr.b58_encode
        ((Network.xprv_version net ++ [d] ++ fp ++ ser32 cn ++ cc ++
          (0 :: ser256 pk)) ++
          checksum pr (Network.xprv_version net ++ [d] ++ fp ++ ser32 cn ++
            cc ++ (0 :: ser256 pk))) =
      base58check_encode pr (Network.xprv_version net ++ [d] ++ fp ++
        ser32 cn ++ cc ++ (0 :: ser256 pk)) from rfl]
    rw [base58check_decode_encode pr hWf]
    have hverlen : (Network.xprv_version net).length = 4 := by
      cases net <;> rfl
    dsimp only
    rw [if_neg (by
      simp [hverlen, hfp, hcc, ser32, ser256, serBE_length])]
    simp only [List.append_assoc]
    have hver4 : ((Network.xprv_version net ++ ([d] ++ (fp ++ (ser32 cn ++
        (cc ++ (0 :: ser256 pk)))))).take 4) = Network.xprv_version net :=
      List.take_left' hverlen
    rw [hver4]
    cases net with
    | Bitcoin =>
      rw [if_pos rfl]
      exact parse_fields_priv_layout _ d fp cn cc pk _ hverlen hfp hcc hcn
        hpk0 hpkn
    | Testnet =>
      rw [if_neg (by decide)]
      rw [if_pos rfl]
      exact parse_fields_priv_layout _ d fp cn cc pk _ hverlen hfp hcc hcn
        hpk0 hpkn
  · obtain ⟨d, fp, cn, cc, p, net⟩ := P
    obtain ⟨hd, hfp, hfpb, hcn, hcc, hccb, hp0, hpn⟩ := hP
    simp only [ExtendedPubKey.to_string, ExtendedPubKey.from_string,
      base58check_encode] at *
    rw [show pr.b58_encode
        ((Network.xpub_version net ++ [d] ++ fp ++ ser32 cn ++ cc ++
          pr.serP p) ++
          checksum pr (Network.xpub_version net ++ [d] ++ fp ++ ser32 cn ++
            cc ++ pr.serP p)) =
      base58check_encode pr (Network.xpub_version net ++ [d] ++ fp ++
        ser32 cn ++ cc ++ pr.serP p) from rfl]
    rw [base58check_decode_encode pr hWf]
    have hverlen : (Network.xpub_version net).length = 4 := by
      cases net <;> rfl
    dsimp only
    rw [if_neg (by
      simp [hverlen, hfp, hcc, ser32, serBE_length, hWf.serP_len])]
    simp only [List.append_assoc]
    have hver4 : ((Network.xpub_version net ++ ([d] ++ (fp ++ (ser32 cn ++
        (cc ++ pr.serP p))))).take 4) = Network.xpub_version net :=
      List.take_left' hverlen
    rw [hver4]
    cases net with
    | Bitcoin =>
      rw [if_pos rfl]
      exact parse_fields_pub_layout pr hWf _ d fp cn cc p _ hverlen hfp hcc
        hcn hp0 hpn
    | Testnet =>
      rw [if_neg (by decide)]
      rw [if_pos rfl]
      exact parse_fields_pub_layout pr hWf _ d fp cn cc p _ hverlen hfp hcc
        hcn hp0 hpn

/-- C4 witness: the round trip at a concrete private and public key. -/
theorem c4_serialization_roundtrip_witness :
    ExtendedPrivKey.from_string examplePrims
        (ExtendedPrivKey.to_string examplePrims exampleKey) =
        .ok exampleKey ∧
      ExtendedPubKey.from_string examplePrims
        (ExtendedPubKey.to_string examplePrims examplePub) =
        .ok examplePub :=
  c4_serialization_roundtrip examplePrims examplePrims_wf exampleKey
    (by unfold ExtendedPrivKey.Valid; decide) examplePub
    (by unfold ExtendedPubKey.Valid; decide)
